import Mathlib

/-
  Verification of the open-addressing hash set (src/open_addressing_set.py).

  Shallow embedding conventions:
  * A bucket slot is `Option K`: `none` models the sentinel `EMPTY`, `some k` an
    occupied slot.  The Python class attribute `EMPTY` is a unique object, so
    `is EMPTY` / `is not EMPTY` are exactly the `none` / `some` distinction.
  * The element type is a parameter `K` with decidable equality together with a
    hash function `pyhash : K → Nat`; Python requires keys to be hashable and
    equatable.  Concrete tests use `K = Nat` and `pyhash = id`, which agrees
    with CPython's `hash` on small non-negative integers.
  * The load-factor test `(self.size + 1) / self.capacity > 0.7` is embedded as
    the exact rational comparison `10 * (size + 1) > 7 * capacity`.  For every
    representable table (capacity far below 2^49) the IEEE-double comparison in
    CPython agrees with the exact rational one, and all concrete scenarios in
    this file use dyadic loads where the two are trivially equal.
  * Loops that Python runs unboundedly (`_probe`, the loops in `member` and
    `remove`) are embedded with fuel equal to `capacity`: a linear probe that
    advances by `(index + 1) % capacity` visits every slot within `capacity`
    steps, so the fueled walk returns `none` exactly when the Python loop would
    never terminate (and `none` likewise models the `ZeroDivisionError` raised
    by `% 0` / `/ 0` when `capacity = 0`).
  * `add` calls `_resize`, which calls `add` again, and with a growth factor
    below 2 that mutual recursion can fail to make progress; `add` therefore
    carries a resize-depth fuel.  Fuel 1 is proven sufficient on every state
    satisfying the structural invariant, and theorems quantify over the fuel.
-/

/-- The hash set state: the fields `capacity`, `growth_factor`, `size` and
`buckets` of the Python class `OpenAddressingSet`.  Python's unbounded ints are
embedded as `Nat`; in `remove` the decrement `self.size -= 1` only happens when
an occupied slot was found, so `size` stays non-negative on the states reached
there and Nat subtraction is faithful. -/
structure OpenAddressingSet (K : Type) where
  capacity : Nat
  growth_factor : Nat
  size : Nat
  buckets : List (Option K)
deriving DecidableEq

namespace OpenAddressingSet

variable {K : Type} [DecidableEq K] (pyhash : K → Nat)

/-- `__init__(initial_capacity, growth_factor)`: no validation is performed by
the source; the bucket array is `[EMPTY] * initial_capacity`. -/
def init (initial_capacity : Nat) (growth_factor : Nat) : OpenAddressingSet K :=
  ⟨initial_capacity, growth_factor, 0, List.replicate initial_capacity none⟩

/-- The probe loop of `_probe`: starting at `index`, advance by
`(index + 1) % capacity` until an empty slot or a slot equal to `key` is found.
Fuel `capacity` makes the walk total; `none` models divergence/IndexError. -/
def probeAux (buckets : List (Option K)) (capacity : Nat) (key : K) :
    Nat → Nat → Option Nat
  | 0, _ => none
  | fuel + 1, index =>
    match buckets[index]? with
    | none => none
    | some none => some index
    | some (some k) =>
      if k = key then some index
      else probeAux buckets capacity key fuel ((index + 1) % capacity)

/-- `_probe(key)`: start at `hash(key) % capacity`.  `capacity = 0` models the
`ZeroDivisionError` of `% 0` as `none`. -/
def probe (s : OpenAddressingSet K) (key : K) : Option Nat :=
  if s.capacity = 0 then none
  else probeAux s.buckets s.capacity key s.capacity (pyhash key % s.capacity)

/-- The loop of `member`: walk the probe sequence; an empty slot means absent
(`false`), an equal key means present (`true`). -/
def memberAux (buckets : List (Option K)) (capacity : Nat) (key : K) :
    Nat → Nat → Option Bool
  | 0, _ => none
  | fuel + 1, index =>
    match buckets[index]? with
    | none => none
    | some none => some false
    | some (some k) =>
      if k = key then some true
      else memberAux buckets capacity key fuel ((index + 1) % capacity)

/-- `member(key)`. -/
def member (s : OpenAddressingSet K) (key : K) : Option Bool :=
  if s.capacity = 0 then none
  else memberAux s.buckets s.capacity key s.capacity (pyhash key % s.capacity)

/-- The loop of `remove`: walk from the home index; stop silently at an empty
slot; if an equal key is found, mark the slot empty and decrement `size`. -/
def removeAux (s : OpenAddressingSet K) (key : K) :
    Nat → Nat → Option (OpenAddressingSet K)
  | 0, _ => none
  | fuel + 1, index =>
    match s.buckets[index]? with
    | none => none
    | some none => some s
    | some (some k) =>
      if k = key then
        some { s with buckets := s.buckets.set index none, size := s.size - 1 }
      else removeAux s key fuel ((index + 1) % s.capacity)

/-- `remove(key)`. -/
def remove (s : OpenAddressingSet K) (key : K) : Option (OpenAddressingSet K) :=
  if s.capacity = 0 then none
  else removeAux s key s.capacity (pyhash key % s.capacity)

/-- The second half of `add`, after the load-factor check: probe, and if the
found slot is empty store the key there and increment `size`; if it holds an
equal key, do nothing. -/
def addInsert (s : OpenAddressingSet K) (key : K) : Option (OpenAddressingSet K) :=
  match probe pyhash s key with
  | none => none
  | some index =>
    match s.buckets[index]? with
    | some none =>
      some { s with buckets := s.buckets.set index (some key), size := s.size + 1 }
    | some (some _) => some s
    | none => none

/-- Sequential `add` of each list element, short-circuiting on failure: the
`for` loops of `_resize`, `from_list` and `concat`. -/
def foldAdd (addFn : OpenAddressingSet K → K → Option (OpenAddressingSet K)) :
    OpenAddressingSet K → List K → Option (OpenAddressingSet K)
  | s, [] => some s
  | s, key :: rest =>
    match addFn s key with
    | none => none
    | some s' => foldAdd addFn s' rest

/-- The state set up at the start of `_resize`: capacity multiplied by the
growth factor, an all-empty bucket array of the new capacity, `size = 0`. -/
def freshTable (s : OpenAddressingSet K) : OpenAddressingSet K :=
  ⟨s.capacity * s.growth_factor, s.growth_factor, 0,
    List.replicate (s.capacity * s.growth_factor) none⟩

/-- `add(key)`: if `(size + 1) / capacity > 0.7`, resize (rebuild the table by
re-adding every occupied key of the old bucket array, in bucket order), then
probe and insert.  The fuel bounds the depth of the `add`/`_resize` mutual
recursion; `none` models non-termination (growth factor < 2) or the
`ZeroDivisionError` when `capacity = 0`. -/
def add : Nat → OpenAddressingSet K → K → Option (OpenAddressingSet K)
  | 0 => fun s key =>
    if s.capacity = 0 then none
    else if 10 * (s.size + 1) > 7 * s.capacity then none
    else addInsert pyhash s key
  | fuel + 1 => fun s key =>
    if s.capacity = 0 then none
    else if 10 * (s.size + 1) > 7 * s.capacity then
      (foldAdd (add fuel) (freshTable s) (s.buckets.filterMap id)).bind
        (fun t => addInsert pyhash t key)
    else addInsert pyhash s key

/-- `_resize()`: rebuild into a fresh table of capacity
`capacity * growth_factor` by re-adding every occupied key in bucket order. -/
def resize (fuel : Nat) (s : OpenAddressingSet K) : Option (OpenAddressingSet K) :=
  foldAdd (add pyhash fuel) (freshTable s) (s.buckets.filterMap id)

/-- `to_list()`: the occupied slots' keys in bucket order. -/
def to_list (s : OpenAddressingSet K) : List K :=
  s.buckets.filterMap id

/-- `from_list(lst)`: `add` each element in order. -/
def from_list (fuel : Nat) (s : OpenAddressingSet K) (lst : List K) :
    Option (OpenAddressingSet K) :=
  foldAdd (add pyhash fuel) s lst

/-- `empty()`: `OpenAddressingSet()` with the default configuration
`initial_capacity=8, growth_factor=2`. -/
def empty : OpenAddressingSet K := init 8 2

/-- `concat(other_set)`: `add` every non-empty slot of `other_set.buckets`
into the receiver (the mutating variant of the source). -/
def concat (fuel : Nat) (s other : OpenAddressingSet K) :
    Option (OpenAddressingSet K) :=
  foldAdd (add pyhash fuel) s (other.buckets.filterMap id)

/-- One public mutating operation of the container; `concatOp` carries the
bucket array of the other set (an arbitrary slot list, covering every possible
argument set). -/
inductive SetOp (K : Type) where
  | addOp : K → SetOp K
  | removeOp : K → SetOp K
  | fromListOp : List K → SetOp K
  | concatOp : List (Option K) → SetOp K

/-- Apply one operation. -/
def applyOp (fuel : Nat) (s : OpenAddressingSet K) :
    SetOp K → Option (OpenAddressingSet K)
  | SetOp.addOp k => add pyhash fuel s k
  | SetOp.removeOp k => remove pyhash s k
  | SetOp.fromListOp l => from_list pyhash fuel s l
  | SetOp.concatOp b => foldAdd (add pyhash fuel) s (b.filterMap id)

/-- Run a finite sequence of operations. -/
def runOps (fuel : Nat) : OpenAddressingSet K → List (SetOp K) →
    Option (OpenAddressingSet K)
  | s, [] => some s
  | s, op :: rest =>
    match applyOp pyhash fuel s op with
    | none => none
    | some s' => runOps fuel s' rest

/-- The while-loop body of `__next__`, walking `iter_index` forward from `i`;
yields the next occupied key together with the cursor value after it, or
`none` for `StopIteration`.  The fuel is `capacity - i`, which is exactly the
number of loop iterations still allowed by `iter_index < capacity`. -/
def pyNextAux (buckets : List (Option K)) : Nat → Nat → Option (K × Nat)
  | 0, _ => none
  | fuel + 1, i =>
    match buckets[i]? with
    | some (some k) => some (k, i + 1)
    | some none => pyNextAux buckets fuel (i + 1)
    | none => none

/-- `__next__` as a function of the shared cursor `self.iter_index`: Python
stores the cursor on the set object itself (`__iter__` sets
`self.iter_index = 0` and returns `self`), so every iterator of the same set
reads and writes this one cursor. -/
def pyNext (capacity : Nat) (buckets : List (Option K)) (i : Nat) :
    Option (K × Nat) :=
  pyNextAux buckets (capacity - i) i

/-- All keys yielded by repeatedly calling `__next__` from cursor `i` until
`StopIteration`. -/
def collectFromAux (buckets : List (Option K)) : Nat → Nat → List K
  | 0, _ => []
  | fuel + 1, i =>
    match buckets[i]? with
    | some (some k) => k :: collectFromAux buckets fuel (i + 1)
    | some none => collectFromAux buckets fuel (i + 1)
    | none => []

/-- A full iteration starting at cursor `i` (a fresh `__iter__` gives `i = 0`). -/
def collectFrom (capacity : Nat) (buckets : List (Option K)) (i : Nat) : List K :=
  collectFromAux buckets (capacity - i) i

/-- Set-equality as defined by the spec (§4.1): same `size`, and every element
of each set is a member of the other.  Modelled from the spec: the source has
no `__eq__`; the spec's equality is the comparison relation the algebraic
claims are stated in. -/
def setEqb (s t : OpenAddressingSet K) : Bool :=
  s.size == t.size &&
    (to_list s).all (fun k => member pyhash t k == some true) &&
    (to_list t).all (fun k => member pyhash s k == some true)

/-- Number of occupied slots. -/
def occupancy (s : OpenAddressingSet K) : Nat := (to_list s).length

/-- Structural well-formedness: the bucket array has length `capacity`, the
capacity is positive, the growth factor is at least 2 (the spec's data-model
invariant), `size` counts the occupied slots, and the table is at most 70%
full.  Every state reachable from a validly configured constructor satisfies
this. -/
def StructInv (s : OpenAddressingSet K) : Prop :=
  s.buckets.length = s.capacity ∧ 0 < s.capacity ∧ 2 ≤ s.growth_factor ∧
    s.size = occupancy s ∧ 10 * s.size ≤ 7 * s.capacity

/-- Full well-formedness: structural invariant, no duplicate keys, and every
stored key is findable by the probe walk.  Maintained by `add` (including
resizes) but destroyed by `remove`'s eager slot-emptying. -/
def FullInv (s : OpenAddressingSet K) : Prop :=
  StructInv s ∧ (to_list s).Nodup ∧ ∀ k ∈ to_list s, member pyhash s k = some true

instance (s : OpenAddressingSet K) : Decidable (StructInv s) :=
  inferInstanceAs (Decidable (s.buckets.length = s.capacity ∧ 0 < s.capacity ∧
    2 ≤ s.growth_factor ∧ s.size = occupancy s ∧ 10 * s.size ≤ 7 * s.capacity))

instance (s : OpenAddressingSet K) : Decidable (FullInv pyhash s) :=
  inferInstanceAs (Decidable (StructInv s ∧ (to_list s).Nodup ∧
    ∀ k ∈ to_list s, member pyhash s k = some true))

/-- The abstract (deduplicating) set semantics the spec's membership invariant
refers to.  Modelled from the spec: a key is in the abstract set when its adds
outnumber its removes under deduplication, i.e. after replaying the operation
sequence on a mathematical set. -/
def absApply : List K → SetOp K → List K
  | l, SetOp.addOp k => if k ∈ l then l else l ++ [k]
  | l, SetOp.removeOp k => l.erase k
  | l, SetOp.fromListOp ks => ks.foldl (fun acc k => if k ∈ acc then acc else acc ++ [k]) l
  | l, SetOp.concatOp b =>
    (b.filterMap id).foldl (fun acc k => if k ∈ acc then acc else acc ++ [k]) l

/-- Replay a whole operation sequence on the abstract set. -/
def absRun (ops : List (SetOp K)) : List K :=
  ops.foldl absApply []

/-- The bucket array of the concrete set `{1, 2}` built by
`from_list([1, 2])` on a default-constructed set (hash = identity). -/
def bcex : List (Option Nat) :=
  [none, some 1, some 2, none, none, none, none, none]

/-- The concrete set `{1, 2}` with default configuration. -/
def scex : OpenAddressingSet Nat := ⟨8, 2, 2, bcex⟩

/-- Operation sequence producing a probe-chain-broken state: key 8 collides
with key 0 at home index 0, lands in slot 1, and removing 0 empties slot 0,
cutting 8's probe chain. -/
def brokenOps : List (SetOp Nat) :=
  [SetOp.addOp 0, SetOp.addOp 8, SetOp.removeOp 0]

/-- A small well-formed set `{1}` with capacity 4, used as witness input. -/
def wset : OpenAddressingSet Nat := ⟨4, 2, 1, [none, some 1, none, none]⟩

/-- A well-formed set `{1, 2}` with capacity 4 whose next add crosses the
load-factor threshold (`(2+1)/4 = 0.75 > 0.7`), used as witness input. -/
def wsetFull : OpenAddressingSet Nat := ⟨4, 2, 2, [none, some 1, some 2, none]⟩

/- ------------------------------------------------------------------ -/
/- Concrete evaluations settling the claims that fail on the code.     -/
/- ------------------------------------------------------------------ -/

theorem foldAdd_append (f : OpenAddressingSet K → K → Option (OpenAddressingSet K))
    (l₁ l₂ : List K) : ∀ s : OpenAddressingSet K,
    foldAdd f s (l₁ ++ l₂) = (foldAdd f s l₁).bind (fun t => foldAdd f t l₂) := by
  induction l₁ with
  | nil => intro s; simp [foldAdd]
  | cons k l ih =>
    intro s
    simp only [List.cons_append, foldAdd]
    cases f s k <;> simp [ih]

theorem filterMap_id_replicate_none (n : Nat) :
    (List.replicate n (none : Option K)).filterMap id = [] := by
  induction n with
  | zero => rfl
  | succ m ih => simp [List.replicate_succ, List.filterMap_cons, ih]

theorem exists_none_of_filterMap_lt (l : List (Option K))
    (h : (l.filterMap id).length < l.length) :
    ∃ j, j < l.length ∧ l[j]? = some none := by
  induction l with
  | nil => simp at h
  | cons a t ih =>
    cases a with
    | none => exact ⟨0, by simp, by simp⟩
    | some x =>
      have h' : (t.filterMap id).length < t.length := by
        simpa [List.filterMap_cons] using h
      obtain ⟨j, hj, hslot⟩ := ih h'
      exact ⟨j + 1, by simpa using hj, by simpa using hslot⟩

theorem filterMap_set_none_length (l : List (Option K)) :
    ∀ idx, l[idx]? = some none → ∀ x : K,
    ((l.set idx (some x)).filterMap id).length = (l.filterMap id).length + 1 := by
  induction l with
  | nil => intro idx h; cases h
  | cons a t ih =>
    intro idx h x
    cases idx with
    | zero =>
      cases a with
      | none => simp [List.filterMap_cons]
      | some y => simp at h
    | succ j =>
      rw [List.getElem?_cons_succ] at h
      cases a with
      | none => simpa [List.filterMap_cons] using ih j h x
      | some y => simpa [List.filterMap_cons] using ih j h x

theorem filterMap_set_none_mem (l : List (Option K)) :
    ∀ idx, l[idx]? = some none → ∀ x y : K,
    (y ∈ (l.set idx (some x)).filterMap id ↔ y = x ∨ y ∈ l.filterMap id) := by
  induction l with
  | nil => intro idx h; cases h
  | cons a t ih =>
    intro idx h x y
    cases idx with
    | zero =>
      cases a with
      | none => simp [List.filterMap_cons]
      | some z => simp at h
    | succ j =>
      rw [List.getElem?_cons_succ] at h
      cases a with
      | none => simpa [List.filterMap_cons] using ih j h x y
      | some z =>
        simp only [List.set_cons_succ, List.filterMap_cons, id, List.mem_cons,
          ih j h x y]
        tauto

theorem filterMap_set_none_nodup (l : List (Option K)) :
    ∀ idx, l[idx]? = some none → ∀ x : K,
    (l.filterMap id).Nodup → x ∉ l.filterMap id →
    ((l.set idx (some x)).filterMap id).Nodup := by
  induction l with
  | nil => intro idx h; cases h
  | cons a t ih =>
    intro idx h x hnd hx
    cases idx with
    | zero =>
      cases a with
      | none =>
        simp only [List.set_cons_zero, List.filterMap_cons, id]
        simp only [List.filterMap_cons, id] at hnd hx
        exact List.Nodup.cons hx hnd
      | some z => simp at h
    | succ j =>
      rw [List.getElem?_cons_succ] at h
      cases a with
      | none => simpa [List.filterMap_cons] using ih j h x (by simpa [List.filterMap_cons] using hnd) (by simpa [List.filterMap_cons] using hx)
      | some z =>
        simp only [List.set_cons_succ, List.filterMap_cons, id, List.nodup_cons] at hnd ⊢
        simp only [List.filterMap_cons, id, List.mem_cons] at hx
        refine ⟨?_, ih j h x hnd.2 (fun hxm => hx (Or.inr hxm))⟩
        rw [filterMap_set_none_mem t j h x z]
        rintro (rfl | hzm)
        · exact hx (Or.inl rfl)
        · exact hnd.1 hzm

theorem filterMap_set_some_length (l : List (Option K)) :
    ∀ idx (w : K), l[idx]? = some (some w) →
    ((l.set idx none).filterMap id).length + 1 = (l.filterMap id).length := by
  induction l with
  | nil => intro idx w h; cases h
  | cons a t ih =>
    intro idx w h
    cases idx with
    | zero =>
      cases a with
      | none => simp at h
      | some y => simp [List.filterMap_cons]
    | succ j =>
      rw [List.getElem?_cons_succ] at h
      cases a with
      | none => simpa [List.filterMap_cons] using ih j w h
      | some y => simpa [List.filterMap_cons] using ih j w h

theorem runOps_append (fuel : Nat) (l₁ l₂ : List (SetOp K)) :
    ∀ s : OpenAddressingSet K,
    runOps pyhash fuel s (l₁ ++ l₂) =
      (runOps pyhash fuel s l₁).bind (fun t => runOps pyhash fuel t l₂) := by
  induction l₁ with
  | nil => intro s; simp [runOps]
  | cons op l ih =>
    intro s
    simp only [List.cons_append, runOps]
    cases applyOp pyhash fuel s op <;> simp [ih]

theorem probeAux_spec (b : List (Option K)) (n : Nat) (key : K) :
    ∀ fuel index idx, probeAux b n key fuel index = some idx →
    b[idx]? = some none ∨ b[idx]? = some (some key) := by
  intro fuel
  induction fuel with
  | zero => intro i idx h; simp [probeAux] at h
  | succ f ih =>
    intro i idx h
    cases hb : b[i]? with
    | none => simp [probeAux, hb] at h
    | some v =>
      cases v with
      | none =>
        simp [probeAux, hb] at h
        subst h; exact Or.inl hb
      | some k =>
        by_cases hk : k = key
        · simp [probeAux, hb, hk] at h
          subst h; subst hk; exact Or.inr hb
        · simp only [probeAux, hb, if_neg hk] at h
          exact ih _ _ h

theorem probeAux_isSome (b : List (Option K)) (n : Nat) (key : K) :
    ∀ fuel index, index < n → b.length = n →
    (∃ t, t < fuel ∧ b[(index + t) % n]? = some none) →
    (probeAux b n key fuel index).isSome := by
  intro fuel
  induction fuel with
  | zero => rintro i _ _ ⟨t, ht, _⟩; omega
  | succ f ih =>
    rintro i hi hlen ⟨t, ht, hslot⟩
    have hi' : ¬ (b[i]? = none) := by
      rw [List.getElem?_eq_none_iff]; omega
    cases hb : b[i]? with
    | none => exact absurd hb hi'
    | some v =>
      cases v with
      | none => simp [probeAux, hb]
      | some k =>
        by_cases hk : k = key
        · simp [probeAux, hb, hk]
        · have ht0 : t ≠ 0 := by
            intro h0; subst h0
            rw [Nat.add_zero, Nat.mod_eq_of_lt hi] at hslot
            rw [hslot] at hb; cases hb
          obtain ⟨t', rfl⟩ : ∃ t', t = t' + 1 := ⟨t - 1, by omega⟩
          have hn : 0 < n := by omega
          have hstep : ((i + 1) % n + t') % n = (i + (t' + 1)) % n := by
            rw [Nat.mod_add_mod]; congr 1; omega
          simp only [probeAux, hb, if_neg hk]
          apply ih ((i + 1) % n) (Nat.mod_lt _ hn) hlen
          exact ⟨t', by omega, by rw [hstep]; exact hslot⟩

theorem memberAux_eq_probeAux (b : List (Option K)) (n : Nat) (key : K) :
    ∀ fuel index,
    memberAux b n key fuel index =
      (probeAux b n key fuel index).bind (fun idx => (b[idx]?).map Option.isSome) := by
  intro fuel
  induction fuel with
  | zero => intro i; rfl
  | succ f ih =>
    intro i
    cases hb : b[i]? with
    | none => simp [memberAux, probeAux, hb]
    | some v =>
      cases v with
      | none => simp [memberAux, probeAux, hb]
      | some k =>
        by_cases hk : k = key
        · simp [memberAux, probeAux, hb, hk]
        · simp only [memberAux, probeAux, hb, if_neg hk]
          exact ih _

theorem removeAux_eq_probeAux (s : OpenAddressingSet K) (key : K) :
    ∀ fuel index,
    removeAux s key fuel index =
      (probeAux s.buckets s.capacity key fuel index).bind (fun idx =>
        match s.buckets[idx]? with
        | some none => some s
        | some (some _) =>
          some { s with buckets := s.buckets.set idx none, size := s.size - 1 }
        | none => none) := by
  intro fuel
  induction fuel with
  | zero => intro i; rfl
  | succ f ih =>
    intro i
    cases hb : s.buckets[i]? with
    | none => simp [removeAux, probeAux, hb]
    | some v =>
      cases v with
      | none => simp [removeAux, probeAux, hb]
      | some k =>
        by_cases hk : k = key
        · simp [removeAux, probeAux, hb, hk]
        · simp only [removeAux, probeAux, hb, if_neg hk]
          exact ih _

theorem memberAux_set_of_true (b : List (Option K)) (n : Nat) (key' : K)
    (idx : Nat) (v : Option K) (hidx : b[idx]? = some none) :
    ∀ fuel i, memberAux b n key' fuel i = some true →
    memberAux (b.set idx v) n key' fuel i = some true := by
  intro fuel
  induction fuel with
  | zero => intro i h; simp [memberAux] at h
  | succ f ih =>
    intro i h
    cases hb : b[i]? with
    | none => simp [memberAux, hb] at h
    | some w =>
      cases w with
      | none => simp [memberAux, hb] at h
      | some k =>
        have hne : idx ≠ i := by
          intro he; subst he; rw [hidx] at hb; cases hb
        have hb' : (b.set idx v)[i]? = some (some k) := by
          rw [List.getElem?_set_ne hne]; exact hb
        by_cases hk : k = key'
        · simp [memberAux, hb', hk]
        · simp only [memberAux, hb, if_neg hk] at h
          simp only [memberAux, hb', if_neg hk]
          exact ih _ h

theorem memberAux_set_insert (b : List (Option K)) (n : Nat) (key : K)
    (idx : Nat) (hidx : b[idx]? = some none) :
    ∀ fuel i, probeAux b n key fuel i = some idx →
    memberAux (b.set idx (some key)) n key fuel i = some true := by
  intro fuel
  induction fuel with
  | zero => intro i h; simp [probeAux] at h
  | succ f ih =>
    intro i h
    cases hb : b[i]? with
    | none => simp [probeAux, hb] at h
    | some w =>
      cases w with
      | none =>
        simp [probeAux, hb] at h
        subst h
        have hlt : i < b.length := by
          by_contra hnot
          rw [List.getElem?_eq_none_iff.mpr (by omega)] at hb; cases hb
        have hb' : (b.set i (some key))[i]? = some (some key) :=
          List.getElem?_set_eq_of_lt _ hlt
        simp [memberAux, hb']
      | some k =>
        by_cases hk : k = key
        · simp [probeAux, hb, hk] at h
          subst h; rw [hidx] at hb; cases hb
        · simp only [probeAux, hb, if_neg hk] at h
          have hne : idx ≠ i := by
            intro he; subst he; rw [hidx] at hb; cases hb
          have hb' : (b.set idx (some key))[i]? = some (some k) := by
            rw [List.getElem?_set_ne hne]; exact hb
          simp only [memberAux, hb', if_neg hk]
          exact ih _ h

theorem foldAdd_cons (g : OpenAddressingSet K → K → Option (OpenAddressingSet K))
    (t : OpenAddressingSet K) (k : K) (ks : List K) :
    foldAdd g t (k :: ks) = (g t k).bind (fun t' => foldAdd g t' ks) := by
  simp only [foldAdd]; cases g t k <;> rfl

theorem runOps_cons (fuel : Nat) (op : SetOp K) (ops : List (SetOp K))
    (s : OpenAddressingSet K) :
    runOps pyhash fuel s (op :: ops) =
      (applyOp pyhash fuel s op).bind (fun t => runOps pyhash fuel t ops) := by
  simp only [runOps]; cases applyOp pyhash fuel s op <;> rfl

theorem member_eq_probe (s : OpenAddressingSet K) (key : K) :
    member pyhash s key =
      (probe pyhash s key).bind (fun idx => (s.buckets[idx]?).map Option.isSome) := by
  by_cases hc : s.capacity = 0
  · simp [member, probe, hc]
  · rw [member, probe, if_neg hc, if_neg hc]
    exact memberAux_eq_probeAux _ _ _ _ _

theorem remove_eq_probe (s : OpenAddressingSet K) (key : K) :
    remove pyhash s key =
      (probe pyhash s key).bind (fun idx =>
        match s.buckets[idx]? with
        | some none => some s
        | some (some _) =>
          some { s with buckets := s.buckets.set idx none, size := s.size - 1 }
        | none => none) := by
  by_cases hc : s.capacity = 0
  · simp [remove, probe, hc]
  · rw [remove, probe, if_neg hc, if_neg hc]
    exact removeAux_eq_probeAux _ _ _ _

theorem probe_spec (s : OpenAddressingSet K) (key : K) (idx : Nat)
    (h : probe pyhash s key = some idx) :
    s.buckets[idx]? = some none ∨ s.buckets[idx]? = some (some key) := by
  by_cases hc : s.capacity = 0
  · rw [probe, if_pos hc] at h; cases h
  · rw [probe, if_neg hc] at h
    exact probeAux_spec s.buckets s.capacity key _ _ idx h

theorem occupancy_def (s : OpenAddressingSet K) :
    occupancy s = (s.buckets.filterMap id).length := rfl

theorem probe_isSome (s : OpenAddressingSet K) (key : K)
    (hlen : s.buckets.length = s.capacity) (hocc : occupancy s < s.capacity)
    (hcap : 0 < s.capacity) : (probe pyhash s key).isSome := by
  have hc : ¬ s.capacity = 0 := by omega
  rw [probe, if_neg hc]
  obtain ⟨j, hj, hslot⟩ := exists_none_of_filterMap_lt s.buckets (by
    have := occupancy_def s; omega)
  have hjlt : j < s.capacity := by omega
  have hilt : pyhash key % s.capacity < s.capacity := Nat.mod_lt _ hcap
  apply probeAux_isSome s.buckets s.capacity key s.capacity _ hilt hlen
  refine ⟨(s.capacity + j - pyhash key % s.capacity) % s.capacity,
    Nat.mod_lt _ hcap, ?_⟩
  have heq : pyhash key % s.capacity +
      (s.capacity + j - pyhash key % s.capacity) = s.capacity + j := by omega
  rw [Nat.add_mod_mod, heq, Nat.add_mod_left, Nat.mod_eq_of_lt hjlt]
  exact hslot

theorem member_isSome (s : OpenAddressingSet K) (key : K)
    (hlen : s.buckets.length = s.capacity) (hocc : occupancy s < s.capacity)
    (hcap : 0 < s.capacity) : (member pyhash s key).isSome := by
  rw [member_eq_probe]
  obtain ⟨idx, hidx⟩ := Option.isSome_iff_exists.mp
    (probe_isSome pyhash s key hlen hocc hcap)
  rcases probe_spec pyhash s key idx hidx with h | h <;> simp [hidx, h]

theorem remove_isSome (s : OpenAddressingSet K) (key : K)
    (hlen : s.buckets.length = s.capacity) (hocc : occupancy s < s.capacity)
    (hcap : 0 < s.capacity) : (remove pyhash s key).isSome := by
  rw [remove_eq_probe]
  obtain ⟨idx, hidx⟩ := Option.isSome_iff_exists.mp
    (probe_isSome pyhash s key hlen hocc hcap)
  rcases probe_spec pyhash s key idx hidx with h | h <;> simp [hidx, h]

theorem mem_of_member_true (s : OpenAddressingSet K) (key : K)
    (h : member pyhash s key = some true) : key ∈ to_list s := by
  rw [member_eq_probe] at h
  cases hp : probe pyhash s key with
  | none => rw [hp] at h; cases h
  | some idx =>
    rw [hp] at h
    simp only [Option.some_bind] at h
    rcases probe_spec pyhash s key idx hp with hs | hs
    · rw [hs] at h; simp at h
    · exact List.mem_filterMap.mpr ⟨some key, List.getElem?_mem hs, rfl⟩

theorem add_eq_of_not_trigger (fuel : Nat) (s : OpenAddressingSet K) (key : K)
    (hc : ¬ s.capacity = 0) (ht : ¬ 10 * (s.size + 1) > 7 * s.capacity) :
    add pyhash fuel s key = addInsert pyhash s key := by
  cases fuel <;> simp [add, hc, ht]

theorem add_succ_eq_trigger (fuel : Nat) (s : OpenAddressingSet K) (key : K)
    (hc : ¬ s.capacity = 0) (ht : 10 * (s.size + 1) > 7 * s.capacity) :
    add pyhash (fuel + 1) s key =
      (resize pyhash fuel s).bind (fun t => addInsert pyhash t key) := by
  simp [add, resize, hc, ht]

theorem addInsert_struct (s : OpenAddressingSet K) (key : K)
    (hinv : StructInv s) (hb : 10 * (s.size + 1) ≤ 7 * s.capacity) :
    ∃ s', addInsert pyhash s key = some s' ∧ StructInv s' ∧
      s'.capacity = s.capacity ∧ s'.growth_factor = s.growth_factor ∧
      s'.size ≤ s.size + 1 := by
  obtain ⟨hlen, hcap, hg, hsz, hload⟩ := hinv
  have hocc : occupancy s < s.capacity := by omega
  obtain ⟨idx, hidx⟩ := Option.isSome_iff_exists.mp
    (probe_isSome pyhash s key hlen hocc hcap)
  rcases probe_spec pyhash s key idx hidx with hslot | hslot
  · refine ⟨{ s with buckets := s.buckets.set idx (some key), size := s.size + 1 },
      by simp [addInsert, hidx, hslot], ?_, rfl, rfl, by simp⟩
    have hocc' := filterMap_set_none_length s.buckets idx hslot key
    refine ⟨by simpa [List.length_set] using hlen, hcap, hg, ?_, hb⟩
    show s.size + 1 = occupancy _
    rw [occupancy_def] at hsz ⊢
    simp only
    omega
  · exact ⟨s, by simp [addInsert, hidx, hslot], ⟨hlen, hcap, hg, hsz, hload⟩,
      rfl, rfl, by omega⟩

theorem foldAdd_rehydrate_struct (f : Nat) :
    ∀ (ks : List K) (t : OpenAddressingSet K), StructInv t →
    10 * (t.size + ks.length) ≤ 7 * t.capacity →
    ∃ t', foldAdd (add pyhash f) t ks = some t' ∧ StructInv t' ∧
      t'.capacity = t.capacity ∧ t'.growth_factor = t.growth_factor ∧
      t'.size ≤ t.size + ks.length := by
  intro ks
  induction ks with
  | nil =>
    intro t hinv hb
    exact ⟨t, rfl, hinv, rfl, rfl, by omega⟩
  | cons k ks ih =>
    intro t hinv hb
    have hc0 : ¬ t.capacity = 0 := by have := hinv.2.1; omega
    have hlb : 10 * (t.size + 1) ≤ 7 * t.capacity := by
      simp only [List.length_cons] at hb; omega
    have hnt : ¬ 10 * (t.size + 1) > 7 * t.capacity := by omega
    obtain ⟨t₁, heq, hinv₁, hcap₁, hg₁, hsz₁⟩ := addInsert_struct pyhash t k hinv hlb
    have hadd : add pyhash f t k = some t₁ := by
      rw [add_eq_of_not_trigger pyhash f t k hc0 hnt]; exact heq
    obtain ⟨t', heq', hinv', hcap', hg', hsz'⟩ := ih t₁ hinv₁ (by
      simp only [List.length_cons] at hb; omega)
    refine ⟨t', ?_, hinv', by omega, by rw [hg', hg₁], by
      simp only [List.length_cons]; omega⟩
    rw [foldAdd_cons, hadd, Option.some_bind]
    exact heq'

theorem resize_struct (f : Nat) (s : OpenAddressingSet K) (hinv : StructInv s) :
    ∃ r, resize pyhash f s = some r ∧ StructInv r ∧
      r.capacity = s.capacity * s.growth_factor ∧
      r.growth_factor = s.growth_factor ∧ r.size ≤ s.size := by
  obtain ⟨hlen, hcap, hg, hsz, hload⟩ := hinv
  have hcg : s.capacity * 2 ≤ s.capacity * s.growth_factor :=
    Nat.mul_le_mul_left _ hg
  have hfresh : StructInv (freshTable s) := by
    refine ⟨?_, ?_, hg, ?_, ?_⟩
    · simp [freshTable]
    · simp only [freshTable]
      exact Nat.mul_pos hcap (by omega)
    · simp [freshTable, occupancy_def, filterMap_id_replicate_none]
    · simp [freshTable]
  have hlist : (s.buckets.filterMap id).length = s.size := by
    rw [occupancy_def] at hsz; omega
  obtain ⟨r, heq, hinv', hcap', hg', hsz'⟩ :=
    foldAdd_rehydrate_struct pyhash f (s.buckets.filterMap id) (freshTable s)
      hfresh (by simp only [freshTable]; rw [hlist]; omega)
  refine ⟨r, heq, hinv', ?_, ?_, ?_⟩
  · rw [hcap']; rfl
  · rw [hg']; rfl
  · have : (freshTable s).size = 0 := rfl
    omega

theorem add_struct (f : Nat) (s : OpenAddressingSet K) (key : K)
    (hinv : StructInv s) :
    ∃ s', add pyhash (f + 1) s key = some s' ∧ StructInv s' ∧
      s'.growth_factor = s.growth_factor ∧
      s'.capacity = (if 10 * (s.size + 1) > 7 * s.capacity then
        s.capacity * s.growth_factor else s.capacity) := by
  have hc0 : ¬ s.capacity = 0 := by have := hinv.2.1; omega
  by_cases ht : 10 * (s.size + 1) > 7 * s.capacity
  · obtain ⟨r, hr, hrinv, hrcap, hrg, hrsz⟩ := resize_struct pyhash f s hinv
    obtain ⟨hlen, hcap, hg, hsz, hload⟩ := hinv
    have hcg : s.capacity * 2 ≤ s.capacity * s.growth_factor :=
      Nat.mul_le_mul_left _ hg
    have hb : 10 * (r.size + 1) ≤ 7 * r.capacity := by
      rw [hrcap]
      have h14 : 7 * (s.capacity * 2) ≤ 7 * (s.capacity * s.growth_factor) :=
        Nat.mul_le_mul_left 7 hcg

      have hmain : 10 * (r.size + 1) ≤ 7 * (s.capacity * 2) := by
        have h1 : r.size ≤ s.size := hrsz
        have h2 : 10 * s.size ≤ 7 * s.capacity := hload
        have h4 : 0 < s.capacity := hcap
        rcases Nat.lt_or_ge s.capacity 2 with hc | hc
        · omega
        · omega
      exact le_trans hmain h14
    obtain ⟨s', hs', hinv', hcap', hg', _⟩ := addInsert_struct pyhash r key hrinv hb
    refine ⟨s', ?_, hinv', by rw [hg', hrg], by rw [if_pos ht, hcap', hrcap]⟩
    rw [add_succ_eq_trigger pyhash f s key hc0 ht, hr, Option.some_bind]
    exact hs'
  · obtain ⟨s', hs', hinv', hcap', hg', _⟩ := addInsert_struct pyhash s key hinv (by omega)
    refine ⟨s', ?_, hinv', hg', by rw [if_neg ht, hcap']⟩
    rw [add_eq_of_not_trigger pyhash (f + 1) s key hc0 ht]
    exact hs'

theorem remove_struct (s : OpenAddressingSet K) (key : K) (hinv : StructInv s) :
    ∃ s', remove pyhash s key = some s' ∧ StructInv s' ∧
      s'.capacity = s.capacity ∧ s'.growth_factor = s.growth_factor := by
  obtain ⟨hlen, hcap, hg, hsz, hload⟩ := hinv
  have hocc : occupancy s < s.capacity := by omega
  obtain ⟨idx, hidx⟩ := Option.isSome_iff_exists.mp
    (probe_isSome pyhash s key hlen hocc hcap)
  rcases probe_spec pyhash s key idx hidx with hslot | hslot
  · refine ⟨s, ?_, ⟨hlen, hcap, hg, hsz, hload⟩, rfl, rfl⟩
    rw [remove_eq_probe, hidx, Option.some_bind, hslot]
  · refine ⟨{ s with buckets := s.buckets.set idx none, size := s.size - 1 },
      ?_, ?_, rfl, rfl⟩
    · rw [remove_eq_probe, hidx, Option.some_bind, hslot]
    · have hocc' := filterMap_set_some_length s.buckets idx key hslot
      refine ⟨by simpa [List.length_set] using hlen, hcap, hg, ?_,
        show 10 * (s.size - 1) ≤ 7 * s.capacity by omega⟩
      show s.size - 1 = occupancy _
      rw [occupancy_def] at hsz ⊢
      simp only
      omega

theorem foldAdd_add_struct (f : Nat) :
    ∀ (ks : List K) (t : OpenAddressingSet K), StructInv t →
    ∃ t', foldAdd (add pyhash (f + 1)) t ks = some t' ∧ StructInv t' := by
  intro ks
  induction ks with
  | nil => exact fun t hinv => ⟨t, rfl, hinv⟩
  | cons k ks ih =>
    intro t hinv
    obtain ⟨t₁, heq, hinv₁, _, _⟩ := add_struct pyhash f t k hinv
    obtain ⟨t', heq', hinv'⟩ := ih t₁ hinv₁
    refine ⟨t', ?_, hinv'⟩
    rw [foldAdd_cons, heq, Option.some_bind]
    exact heq'

theorem applyOp_struct (f : Nat) (s : OpenAddressingSet K) (op : SetOp K)
    (hinv : StructInv s) :
    ∃ s', applyOp pyhash (f + 1) s op = some s' ∧ StructInv s' := by
  cases op with
  | addOp k =>
    obtain ⟨s', h1, h2, _, _⟩ := add_struct pyhash f s k hinv
    exact ⟨s', h1, h2⟩
  | removeOp k =>
    obtain ⟨s', h1, h2, _, _⟩ := remove_struct pyhash s k hinv
    exact ⟨s', h1, h2⟩
  | fromListOp l => exact foldAdd_add_struct pyhash f l s hinv
  | concatOp b => exact foldAdd_add_struct pyhash f (b.filterMap id) s hinv

theorem runOps_struct (f : Nat) :
    ∀ (ops : List (SetOp K)) (s : OpenAddressingSet K), StructInv s →
    ∃ s', runOps pyhash (f + 1) s ops = some s' ∧ StructInv s' := by
  intro ops
  induction ops with
  | nil => exact fun s hinv => ⟨s, rfl, hinv⟩
  | cons op ops ih =>
    intro s hinv
    obtain ⟨s₁, heq, hinv₁⟩ := applyOp_struct pyhash f s op hinv
    obtain ⟨s', heq', hinv'⟩ := ih s₁ hinv₁
    refine ⟨s', ?_, hinv'⟩
    rw [runOps_cons, heq, Option.some_bind]
    exact heq'

theorem init_struct (c g : Nat) (hc : 0 < c) (hg : 2 ≤ g) :
    StructInv (init c g : OpenAddressingSet K) := by
  refine ⟨?_, hc, hg, ?_, ?_⟩
  · simp [init]
  · simp [init, occupancy_def, filterMap_id_replicate_none]
  · simp [init]

/-- C1, counterexample.  After `add(0); add(8); remove(0)` on a default set
(capacity 8, hash = identity on small ints), the abstract deduplicating set
contains 8 (one add, zero removes), yet `member(8)` returns `False`: the probe
walk for 8 starts at home index 0, which `remove(0)` emptied, so the walk
stops before reaching 8 in slot 1.  This refutes the claim that `member(k)`
is `True` iff k's net add-count exceeds its remove-count for every add/remove
sequence. -/
theorem C1_counterexample :
    8 ∈ absRun brokenOps ∧
    (runOps (@id Nat) 1 (init 8 2) brokenOps).bind
      (fun s => member id s 8) = some false := by decide

/-- C3, counterexample.  Starting from `initial_capacity=4, growth_factor=2`
and adding the distinct keys 1..6, the capacity is 16, not 8: the claim says
capacity stays 8 up to 6 distinct elements and only the 7th add grows it. -/
theorem C3_counterexample :
    ¬ ((from_list (@id Nat) 1 (init 4 2) [1, 2, 3, 4, 5, 6]).map
        OpenAddressingSet.capacity = some 8) := by
  have h5 : from_list (@id Nat) 1 (init 4 2) [1, 2, 3, 4, 5] =
      some ⟨8, 2, 5, [none, some 1, some 2, some 3, some 4, some 5, none, none]⟩ := by
    decide
  have e : from_list (@id Nat) 1 (init 4 2) [1, 2, 3, 4, 5, 6] =
      (from_list (@id Nat) 1 (init 4 2) [1, 2, 3, 4, 5]).bind
        (fun t => foldAdd (add (@id Nat) 1) t [6]) :=
    foldAdd_append (add (@id Nat) 1) [1, 2, 3, 4, 5] [6] (init 4 2)
  rw [e, h5]
  decide

/-- C3, amended.  With `initial_capacity=4, growth_factor=2`: after
`add(1), add(2), add(3)` the capacity is 8 (the resize fires before the 3rd
insertion completes); it stays 8 through the 5th distinct add; the 6th
distinct add grows it to 16 (`(5+1)/8 = 0.75 > 0.7`), and the 7th leaves it
at 16.  This matches the repository's own `test_resize`. -/
theorem C3_amended_theorem :
    (from_list (@id Nat) 1 (init 4 2) [1, 2, 3]).map
      OpenAddressingSet.capacity = some 8 ∧
    (from_list (@id Nat) 1 (init 4 2) [1, 2, 3, 4]).map
      OpenAddressingSet.capacity = some 8 ∧
    (from_list (@id Nat) 1 (init 4 2) [1, 2, 3, 4, 5]).map
      OpenAddressingSet.capacity = some 8 ∧
    (from_list (@id Nat) 1 (init 4 2) [1, 2, 3, 4, 5, 6]).map
      OpenAddressingSet.capacity = some 16 ∧
    (from_list (@id Nat) 1 (init 4 2) [1, 2, 3, 4, 5, 6, 7]).map
      OpenAddressingSet.capacity = some 16 := by
  have h5 : from_list (@id Nat) 1 (init 4 2) [1, 2, 3, 4, 5] =
      some ⟨8, 2, 5, [none, some 1, some 2, some 3, some 4, some 5, none, none]⟩ := by
    decide
  have e6 : from_list (@id Nat) 1 (init 4 2) [1, 2, 3, 4, 5, 6] =
      (from_list (@id Nat) 1 (init 4 2) [1, 2, 3, 4, 5]).bind
        (fun t => foldAdd (add (@id Nat) 1) t [6]) :=
    foldAdd_append (add (@id Nat) 1) [1, 2, 3, 4, 5] [6] (init 4 2)
  have h6 : from_list (@id Nat) 1 (init 4 2) [1, 2, 3, 4, 5, 6] =
      some ⟨16, 2, 6, [none, some 1, some 2, some 3, some 4, some 5, some 6,
        none, none, none, none, none, none, none, none, none]⟩ := by
    rw [e6, h5]; decide
  have e7 : from_list (@id Nat) 1 (init 4 2) [1, 2, 3, 4, 5, 6, 7] =
      (from_list (@id Nat) 1 (init 4 2) [1, 2, 3, 4, 5, 6]).bind
        (fun t => foldAdd (add (@id Nat) 1) t [7]) :=
    foldAdd_append (add (@id Nat) 1) [1, 2, 3, 4, 5, 6] [7] (init 4 2)
  refine ⟨by decide, by decide, by rw [h5]; rfl, by rw [h6]; rfl, ?_⟩
  rw [e7, h6]
  decide

/-- C5, counterexample.  For the reachable state `a` produced by
`add(0); add(8); remove(0)` (key 8 stored but unreachable by probing),
`empty().concat(a)` is not set-equal to `a`: the new set answers
`member(8) = True` while `a` answers `False`, violating mutual membership. -/
theorem C5_counterexample :
    (runOps (@id Nat) 1 (init 8 2) brokenOps).bind
      (fun a => (concat id 1 empty a).map (fun t => setEqb id a t)) =
    some false := by decide

/-- C6, evidence.  The constructor performs no validation: with
`initial_capacity = 0` it returns a container (capacity 0, empty bucket
array) instead of failing fast, and every later `add` or `member` then fails
(`(size+1)/capacity` and `hash(key) % capacity` raise `ZeroDivisionError`,
modelled as `none`), for every resize-fuel and key. -/
theorem C6_evidence :
    (init 0 2 : OpenAddressingSet Nat).capacity = 0 ∧
    (init 0 2 : OpenAddressingSet Nat).buckets = [] ∧
    ∀ fuel key, add (@id Nat) fuel (init 0 2) key = none ∧
      member (@id Nat) (init 0 2) key = none := by
  refine ⟨rfl, rfl, fun fuel key => ⟨?_, rfl⟩⟩
  cases fuel <;> rfl

/-- C7, counterexample.  `__iter__` stores the cursor on the container
(`self.iter_index = 0`) and returns `self`, so two "independent" iterators of
the same set share one cursor.  For the set `{1, 2}`: after `it1 = iter(s);
it2 = iter(s)` the shared cursor is 0; `next(it1)` yields 1 and moves the
cursor to 2; `next(it2)` then yields 2 (cursor 3); the following `next(it1)`
raises `StopIteration`.  Iterator 1 thus yields only `[1]` even though a full
iteration yields `[1, 2]`: interleaved iterations do interfere. -/
theorem C7_counterexample :
    pyNext 8 bcex 0 = some (1, 2) ∧
    pyNext 8 bcex 2 = some (2, 3) ∧
    pyNext 8 bcex 3 = none ∧
    to_list scex = [1, 2] ∧ [(1 : Nat)] ≠ [1, 2] := by decide

/-- C8, counterexample.  On the reachable state built by
`add(0); add(8); remove(0); add(8); add(2); add(3); add(5)` (the broken chain
lets 8 occupy two slots, so `size = 5` counts a duplicate), a second `add(5)`
pushes the load over 0.7 and the resize deduplicates: size drops from 5 to 4.
So `add(k); add(k)` does not always leave `size` as after a single `add(k)`. -/
theorem C8_counterexample :
    ¬ ((runOps (@id Nat) 1 (init 8 2)
          [SetOp.addOp 0, SetOp.addOp 8, SetOp.removeOp 0, SetOp.addOp 8,
            SetOp.addOp 2, SetOp.addOp 3, SetOp.addOp 5]).bind
        (fun s1 => (add id 1 s1 5).map (fun s2 => decide (s2.size = s1.size))) =
      some true) := by
  have h1 : runOps (@id Nat) 1 (init 8 2)
      [SetOp.addOp 0, SetOp.addOp 8, SetOp.removeOp 0, SetOp.addOp 8,
        SetOp.addOp 2, SetOp.addOp 3, SetOp.addOp 5] =
      some ⟨8, 2, 5, [some 8, some 8, some 2, some 3, none, some 5, none, none]⟩ := by
    decide
  rw [h1]
  decide

/-- C9, counterexample.  For the reachable state `s` after
`add(0); add(8); remove(0)`, `to_list(s) = [8]` but `member(s, 8) = False`;
the fresh default set built by `from_list(to_list(s))` answers
`member(8) = True`, so the round-trip is not set-equal to `s`. -/
theorem C9_counterexample :
    (runOps (@id Nat) 1 (init 8 2) brokenOps).bind
      (fun s => (from_list id 1 (init 8 2) (to_list s)).map
        (fun t => setEqb id s t)) = some false := by decide

/-- C10, counterexample.  On the reachable state built by
`add(0); add(8); remove(0); add(2); add(3); add(4); add(5)` (size 5,
capacity 8, key 8 stored but unreachable), `add(2)` with 2 already a member
triggers the resize (`(5+1)/8 > 0.7`), and rehashing repairs 8's probe chain:
`member(8)` flips from `False` to `True`.  The membership of every key is not
left unchanged by such a call. -/
theorem C10_counterexample :
    (runOps (@id Nat) 1 (init 8 2)
        [SetOp.addOp 0, SetOp.addOp 8, SetOp.removeOp 0, SetOp.addOp 2,
          SetOp.addOp 3, SetOp.addOp 4, SetOp.addOp 5]).bind
      (fun s => (add id 1 s 2).map (fun s' =>
        (member id s 2, decide (10 * (s.size + 1) > 7 * s.capacity),
          member id s 8, member id s' 8))) =
    some (some true, true, some false, some true) := by
  have h1 : runOps (@id Nat) 1 (init 8 2)
      [SetOp.addOp 0, SetOp.addOp 8, SetOp.removeOp 0, SetOp.addOp 2,
        SetOp.addOp 3, SetOp.addOp 4, SetOp.addOp 5] =
      some ⟨8, 2, 5, [none, some 8, some 2, some 3, some 4, some 5, none, none]⟩ := by
    decide
  rw [h1]
  decide

theorem to_list_init (c g : Nat) : to_list (init c g : OpenAddressingSet K) = [] := by
  simp [to_list, init, filterMap_id_replicate_none]

theorem to_list_freshTable (s : OpenAddressingSet K) : to_list (freshTable s) = [] := by
  simp [to_list, freshTable, filterMap_id_replicate_none]

theorem member_char (s : OpenAddressingSet K) (hinv : FullInv pyhash s) (key : K) :
    member pyhash s key = some (decide (key ∈ to_list s)) := by
  obtain ⟨⟨hlen, hcap, hg, hsz, hload⟩, hnd, hfind⟩ := hinv
  by_cases hmem : key ∈ to_list s
  · rw [hfind key hmem]; simp [hmem]
  · have hocc : occupancy s < s.capacity := by omega
    obtain ⟨b, hb⟩ := Option.isSome_iff_exists.mp
      (member_isSome pyhash s key hlen hocc hcap)
    cases b with
    | true => exact absurd (mem_of_member_true pyhash s key hb) hmem
    | false => rw [hb]; simp [hmem]

theorem init_full (c g : Nat) (hc : 0 < c) (hg : 2 ≤ g) :
    FullInv pyhash (init c g : OpenAddressingSet K) := by
  refine ⟨init_struct c g hc hg, ?_, ?_⟩
  · rw [to_list_init]; exact List.nodup_nil
  · intro k hk; rw [to_list_init] at hk; cases hk

theorem addInsert_full (s : OpenAddressingSet K) (key : K)
    (hinv : FullInv pyhash s)
    (hbound : 10 * (s.size + 1) ≤ 7 * s.capacity ∨ key ∈ to_list s) :
    ∃ s', addInsert pyhash s key = some s' ∧ FullInv pyhash s' ∧
      s'.capacity = s.capacity ∧ s'.growth_factor = s.growth_factor ∧
      (∀ y, y ∈ to_list s' ↔ y = key ∨ y ∈ to_list s) ∧
      s'.size = (if key ∈ to_list s then s.size else s.size + 1) := by
  obtain ⟨⟨hlen, hcap, hg, hsz, hload⟩, hnd, hfind⟩ := hinv
  have hocc : occupancy s < s.capacity := by omega
  have hc0 : ¬ s.capacity = 0 := by omega
  obtain ⟨idx, hidx⟩ := Option.isSome_iff_exists.mp
    (probe_isSome pyhash s key hlen hocc hcap)
  have hchar := member_char pyhash s ⟨⟨hlen, hcap, hg, hsz, hload⟩, hnd, hfind⟩ key
  have hidx' : probeAux s.buckets s.capacity key s.capacity
      (pyhash key % s.capacity) = some idx := by
    rw [probe, if_neg hc0] at hidx; exact hidx
  rcases probe_spec pyhash s key idx hidx with hslot | hslot
  · -- the probe found an empty slot: the key is absent, so it is inserted
    have hmem : ¬ key ∈ to_list s := by
      intro hmem
      have hfalse : member pyhash s key = some false := by
        rw [member_eq_probe, hidx, Option.some_bind, hslot]; rfl
      rw [hchar] at hfalse
      simp [hmem] at hfalse
    refine ⟨{ s with buckets := s.buckets.set idx (some key), size := s.size + 1 },
      by simp [addInsert, hidx, hslot], ⟨?_, ?_, ?_⟩, rfl, rfl, ?_, by simp [hmem]⟩
    · -- structural invariant
      have hocc' := filterMap_set_none_length s.buckets idx hslot key
      refine ⟨by simpa [List.length_set] using hlen, hcap, hg, ?_, ?_⟩
      · show s.size + 1 = occupancy _
        rw [occupancy_def] at hsz ⊢
        simp only
        omega
      · rcases hbound with hb | hb
        · exact hb
        · exact absurd hb hmem
    · -- no duplicates
      show ((s.buckets.set idx (some key)).filterMap id).Nodup
      exact filterMap_set_none_nodup s.buckets idx hslot key hnd hmem
    · -- every stored key remains findable
      intro k hk
      have hk' := (filterMap_set_none_mem s.buckets idx hslot key k).mp hk
      rcases hk' with rfl | hk''
      · show (if s.capacity = 0 then none
            else memberAux (s.buckets.set idx (some k)) s.capacity k s.capacity
              (pyhash k % s.capacity)) = some true
        rw [if_neg hc0]
        exact memberAux_set_insert s.buckets s.capacity k idx hslot
          s.capacity _ hidx'
      · have hks := hfind k hk''
        rw [member, if_neg hc0] at hks
        show (if s.capacity = 0 then none
            else memberAux (s.buckets.set idx (some key)) s.capacity k s.capacity
              (pyhash k % s.capacity)) = some true
        rw [if_neg hc0]
        exact memberAux_set_of_true s.buckets s.capacity k idx (some key)
          hslot s.capacity _ hks
    · -- stored keys of the new state
      intro y
      exact filterMap_set_none_mem s.buckets idx hslot key y
  · -- the probe found an equal key: no-op
    have hmem : key ∈ to_list s :=
      List.mem_filterMap.mpr ⟨some key, List.getElem?_mem hslot, rfl⟩
    exact ⟨s, by simp [addInsert, hidx, hslot],
      ⟨⟨hlen, hcap, hg, hsz, hload⟩, hnd, hfind⟩, rfl, rfl,
      fun y => ⟨Or.inr, fun h => h.elim (fun he => he ▸ hmem) id⟩,
      by simp [hmem]⟩

theorem foldAdd_rehydrate_full (f : Nat) :
    ∀ (ks : List K) (t : OpenAddressingSet K), FullInv pyhash t →
    10 * (t.size + ks.length) ≤ 7 * t.capacity →
    ∃ t', foldAdd (add pyhash f) t ks = some t' ∧ FullInv pyhash t' ∧
      t'.capacity = t.capacity ∧ t'.growth_factor = t.growth_factor ∧
      (∀ y, y ∈ to_list t' ↔ y ∈ to_list t ∨ y ∈ ks) ∧
      t'.size ≤ t.size + ks.length ∧
      (ks.Nodup → (∀ k ∈ ks, ¬ k ∈ to_list t) → t'.size = t.size + ks.length) := by
  intro ks
  induction ks with
  | nil =>
    intro t hinv hb
    exact ⟨t, rfl, hinv, rfl, rfl, by simp, by omega, by intro _ _; simp⟩
  | cons k ks ih =>
    intro t hinv hb
    have hc0 : ¬ t.capacity = 0 := by have := hinv.1.2.1; omega
    have hlb : 10 * (t.size + 1) ≤ 7 * t.capacity := by
      simp only [List.length_cons] at hb; omega
    have hnt : ¬ 10 * (t.size + 1) > 7 * t.capacity := by omega
    obtain ⟨t₁, heq, hinv₁, hcap₁, hg₁, hmem₁, hsz₁⟩ :=
      addInsert_full pyhash t k hinv (Or.inl hlb)
    have hadd : add pyhash f t k = some t₁ := by
      rw [add_eq_of_not_trigger pyhash f t k hc0 hnt]; exact heq
    have hsz₁' : t₁.size ≤ t.size + 1 := by
      by_cases h : k ∈ to_list t <;> simp [h] at hsz₁ <;> omega
    obtain ⟨t', heq', hinv', hcap', hg', hmem', hsz', hexact⟩ := ih t₁ hinv₁ (by
      rw [hcap₁]
      simp only [List.length_cons] at hb
      omega)
    refine ⟨t', ?_, hinv', by rw [hcap', hcap₁], by rw [hg', hg₁], ?_, ?_, ?_⟩
    · rw [foldAdd_cons, hadd, Option.some_bind]; exact heq'
    · intro y
      rw [hmem' y, hmem₁ y]
      simp only [List.mem_cons]
      tauto
    · simp only [List.length_cons]; omega
    · rintro hnd hdisj
      have hknotin : ¬ k ∈ to_list t := hdisj k (List.mem_cons_self k ks)
      have ht₁sz : t₁.size = t.size + 1 := by
        rw [hsz₁, if_neg hknotin]
      have hdisj' : ∀ k' ∈ ks, ¬ k' ∈ to_list t₁ := by
        intro k' hk' hmem
        rw [hmem₁ k'] at hmem
        rcases hmem with rfl | hold
        · exact (List.nodup_cons.mp hnd).1 hk'
        · exact hdisj k' (List.mem_cons_of_mem _ hk') hold
      have := hexact (List.nodup_cons.mp hnd).2 hdisj'
      simp only [List.length_cons]
      omega

theorem resize_full (f : Nat) (s : OpenAddressingSet K) (hinv : FullInv pyhash s) :
    ∃ r, resize pyhash f s = some r ∧ FullInv pyhash r ∧
      r.capacity = s.capacity * s.growth_factor ∧
      r.growth_factor = s.growth_factor ∧
      (∀ y, y ∈ to_list r ↔ y ∈ to_list s) ∧ r.size = s.size := by
  obtain ⟨⟨hlen, hcap, hg, hsz, hload⟩, hnd, hfind⟩ := hinv
  have hfresh : FullInv pyhash (freshTable s) := by
    refine ⟨⟨?_, ?_, hg, ?_, ?_⟩, ?_, ?_⟩
    · simp [freshTable]
    · simp only [freshTable]; exact Nat.mul_pos hcap (by omega)
    · simp [freshTable, occupancy_def, filterMap_id_replicate_none]
    · simp [freshTable]
    · rw [to_list_freshTable]; exact List.nodup_nil
    · intro k hk; rw [to_list_freshTable] at hk; cases hk
  have hlist : (s.buckets.filterMap id).length = s.size := by
    rw [occupancy_def] at hsz; omega
  have hbound : 10 * ((freshTable s).size + (s.buckets.filterMap id).length) ≤
      7 * (freshTable s).capacity := by
    show 10 * (0 + (s.buckets.filterMap id).length) ≤
      7 * (s.capacity * s.growth_factor)
    have h1 : s.capacity * 1 ≤ s.capacity * s.growth_factor :=
      Nat.mul_le_mul_left _ (by omega)
    have h2 : s.capacity * 1 = s.capacity := by ring
    rw [h2] at h1
    rw [hlist]
    omega
  obtain ⟨r, heq, hinv', hcap', hg', hmem', _, hexact⟩ :=
    foldAdd_rehydrate_full pyhash f (s.buckets.filterMap id) (freshTable s)
      hfresh hbound
  have hdisj : ∀ k ∈ s.buckets.filterMap id, ¬ k ∈ to_list (freshTable s) := by
    intro k _ hk
    rw [to_list_freshTable] at hk
    cases hk
  refine ⟨r, heq, hinv', by rw [hcap']; rfl, by rw [hg']; rfl, ?_, ?_⟩
  · intro y
    rw [hmem' y, to_list_freshTable]
    simp only [List.not_mem_nil, false_or]
    exact Iff.rfl
  · have hr := hexact hnd hdisj
    rw [hr]
    show (freshTable s).size + (s.buckets.filterMap id).length = s.size
    have h0 : (freshTable s).size = 0 := rfl
    omega

theorem add_full (f : Nat) (s : OpenAddressingSet K) (key : K)
    (hinv : FullInv pyhash s) :
    ∃ s', add pyhash (f + 1) s key = some s' ∧ FullInv pyhash s' ∧
      s'.growth_factor = s.growth_factor ∧
      s'.capacity = (if 10 * (s.size + 1) > 7 * s.capacity then
        s.capacity * s.growth_factor else s.capacity) ∧
      (∀ y, y ∈ to_list s' ↔ y = key ∨ y ∈ to_list s) ∧
      s'.size = (if key ∈ to_list s then s.size else s.size + 1) := by
  have hc0 : ¬ s.capacity = 0 := by have := hinv.1.2.1; omega
  by_cases ht : 10 * (s.size + 1) > 7 * s.capacity
  · obtain ⟨r, hr, hrinv, hrcap, hrg, hrmem, hrsz⟩ := resize_full pyhash f s hinv
    have hbound : 10 * (r.size + 1) ≤ 7 * r.capacity ∨ key ∈ to_list r := by
      by_cases hmem : key ∈ to_list s
      · exact Or.inr ((hrmem key).mpr hmem)
      · left
        rw [hrcap, hrsz]
        obtain ⟨⟨hlen, hcap, hg, hsz, hload⟩, _, _⟩ := hinv
        have h14 : 7 * (s.capacity * 2) ≤ 7 * (s.capacity * s.growth_factor) :=
          Nat.mul_le_mul_left 7 (Nat.mul_le_mul_left _ hg)
        have hmain : 10 * (s.size + 1) ≤ 7 * (s.capacity * 2) := by
          rcases Nat.lt_or_ge s.capacity 2 with hcc | hcc
          · omega
          · omega
        exact le_trans hmain h14
    obtain ⟨s', hs', hinv', hcap', hg', hmem', hsz'⟩ :=
      addInsert_full pyhash r key hrinv hbound
    have hmemr : (key ∈ to_list r) = (key ∈ to_list s) := propext (hrmem key)
    refine ⟨s', ?_, hinv', by rw [hg', hrg],
      by rw [if_pos ht, hcap', hrcap], ?_, ?_⟩
    · rw [add_succ_eq_trigger pyhash f s key hc0 ht, hr, Option.some_bind]
      exact hs'
    · intro y; rw [hmem' y, hrmem y]
    · rw [hsz']
      simp only [hmemr, hrsz]
  · have hb : 10 * (s.size + 1) ≤ 7 * s.capacity := by omega
    obtain ⟨s', hs', hinv', hcap', hg', hmem', hsz'⟩ :=
      addInsert_full pyhash s key hinv (Or.inl hb)
    refine ⟨s', ?_, hinv', hg', by rw [if_neg ht, hcap'], hmem', hsz'⟩
    rw [add_eq_of_not_trigger pyhash (f + 1) s key hc0 ht]
    exact hs'

theorem foldAdd_add_full (f : Nat) :
    ∀ (ks : List K) (t : OpenAddressingSet K), FullInv pyhash t →
    ∃ t', foldAdd (add pyhash (f + 1)) t ks = some t' ∧ FullInv pyhash t' ∧
      t'.growth_factor = t.growth_factor ∧
      (∀ y, y ∈ to_list t' ↔ y ∈ to_list t ∨ y ∈ ks) := by
  intro ks
  induction ks with
  | nil => intro t hinv; exact ⟨t, rfl, hinv, rfl, by simp⟩
  | cons k ks ih =>
    intro t hinv
    obtain ⟨t₁, heq, hinv₁, hg₁, hcap₁, hmem₁, hsz₁⟩ := add_full pyhash f t k hinv
    obtain ⟨t', heq', hinv', hg', hmem'⟩ := ih t₁ hinv₁
    refine ⟨t', ?_, hinv', by rw [hg', hg₁], ?_⟩
    · rw [foldAdd_cons, heq, Option.some_bind]; exact heq'
    · intro y
      rw [hmem' y, hmem₁ y]
      simp only [List.mem_cons]
      tauto

theorem length_eq_of_nodup_mem_iff (l l' : List K) (hnd : l.Nodup)
    (hnd' : l'.Nodup) (h : ∀ x, x ∈ l ↔ x ∈ l') : l.length = l'.length := by
  rw [← List.toFinset_card_of_nodup hnd, ← List.toFinset_card_of_nodup hnd']
  congr 1
  ext x
  simp only [List.mem_toFinset]
  exact h x

theorem setEqb_of_inv (s t : OpenAddressingSet K) (hs : FullInv pyhash s)
    (ht : FullInv pyhash t) (hmem : ∀ y, y ∈ to_list s ↔ y ∈ to_list t) :
    setEqb pyhash s t = true := by
  have hlen : (to_list s).length = (to_list t).length :=
    length_eq_of_nodup_mem_iff (to_list s) (to_list t) hs.2.1 ht.2.1 hmem
  rw [setEqb]
  simp only [Bool.and_eq_true, beq_iff_eq, List.all_eq_true]
  refine ⟨⟨?_, ?_⟩, ?_⟩
  · have hssz := hs.1.2.2.2.1
    have htsz := ht.1.2.2.2.1
    rw [hssz, htsz]
    exact hlen
  · intro k hk
    rw [member_char pyhash t ht k]
    simp [(hmem k).mp hk]
  · intro k hk
    rw [member_char pyhash s hs k]
    simp [(hmem k).mpr hk]

/-- C2.  On any structurally well-formed set (bucket length = capacity > 0,
growth factor ≥ 2, size = occupied count, load ≤ 0.7 — true of every reachable
state of a validly configured set), `add(key)` resizes before probing exactly
when `(size + 1) / capacity > 0.7` (strict, embedded as the exact rational
comparison `10 * (size + 1) > 7 * capacity`); the resize multiplies the
capacity by the growth factor, and otherwise the capacity is unchanged. -/
theorem C2_theorem (f : Nat) (s : OpenAddressingSet K) (key : K)
    (hinv : StructInv s) :
    ∃ s', add pyhash (f + 1) s key = some s' ∧
      s'.capacity = (if 10 * (s.size + 1) > 7 * s.capacity then
        s.capacity * s.growth_factor else s.capacity) := by
  obtain ⟨s', h1, _, _, hcap⟩ := add_struct pyhash f s key hinv
  exact ⟨s', h1, hcap⟩

/-- C2, witness: the freshly constructed set with capacity 4 and growth
factor 2, adding key 1. -/
theorem C2_witness :
    StructInv (init 4 2 : OpenAddressingSet Nat) ∧
    (∃ s', add (@id Nat) 1 (init 4 2) 1 = some s' ∧
      s'.capacity = (if 10 * ((init 4 2 : OpenAddressingSet Nat).size + 1) >
          7 * (init 4 2 : OpenAddressingSet Nat).capacity then
        (init 4 2 : OpenAddressingSet Nat).capacity *
          (init 4 2 : OpenAddressingSet Nat).growth_factor
      else (init 4 2 : OpenAddressingSet Nat).capacity)) :=
  ⟨by decide, C2_theorem id 0 (init 4 2) 1 (by decide)⟩

/-- C4.  Starting from a constructor with `initial_capacity > 0` and
`growth_factor ≥ 2`, every finite sequence of `add`, `remove`, `from_list`
and `concat` operations succeeds (resize fuel 1 suffices, for any fuel
budget) and leaves `size < capacity`, so the probe loops of `_probe`,
`member` and `remove` terminate on every key. -/
theorem C4_theorem (c g : Nat) (hc : 0 < c) (hg : 2 ≤ g)
    (ops : List (SetOp K)) (f : Nat) :
    ∃ s', runOps pyhash (f + 1) (init c g) ops = some s' ∧
      s'.size < s'.capacity ∧
      ∀ key, (probe pyhash s' key).isSome ∧ (member pyhash s' key).isSome ∧
        (remove pyhash s' key).isSome := by
  obtain ⟨s', h1, hinv⟩ :=
    runOps_struct pyhash f ops (init c g) (init_struct c g hc hg)
  obtain ⟨hlen, hcap, hgf, hsz, hload⟩ := hinv
  have hocc : occupancy s' < s'.capacity := by omega
  exact ⟨s', h1, by omega, fun key =>
    ⟨probe_isSome pyhash s' key hlen hocc hcap,
      member_isSome pyhash s' key hlen hocc hcap,
      remove_isSome pyhash s' key hlen hocc hcap⟩⟩

/-- C4, witness: capacity 4, growth factor 2, adding then removing key 1. -/
theorem C4_witness :
    0 < 4 ∧ 2 ≤ 2 ∧
    (∃ s', runOps (@id Nat) 1 (init 4 2)
        [SetOp.addOp 1, SetOp.removeOp 1] = some s' ∧
      s'.size < s'.capacity ∧
      ∀ key, (probe id s' key).isSome ∧ (member id s' key).isSome ∧
        (remove id s' key).isSome) :=
  ⟨by decide, by decide,
    C4_theorem id 4 2 (by decide) (by decide) [SetOp.addOp 1, SetOp.removeOp 1] 0⟩

/-- C1, amended.  On a set with valid configuration (`initial_capacity > 0`,
`growth_factor ≥ 2`), after any finite sequence of `add` operations (no
removes), `member(key)` returns exactly whether `key` occurs in the sequence.
(The unamended claim, over sequences that also contain removes, is refuted by
`C1_counterexample`: eager slot-emptying breaks probe chains.) -/
theorem C1_amended_theorem (c g : Nat) (hc : 0 < c) (hg : 2 ≤ g)
    (ks : List K) (key : K) (f : Nat) :
    ∃ s, from_list pyhash (f + 1) (init c g) ks = some s ∧
      member pyhash s key = some (decide (key ∈ ks)) := by
  obtain ⟨s, heq, hinv, _, hmem⟩ :=
    foldAdd_add_full pyhash f ks (init c g) (init_full pyhash c g hc hg)
  refine ⟨s, heq, ?_⟩
  rw [member_char pyhash s hinv key]
  congr 1
  rw [decide_eq_decide, hmem key, to_list_init]
  simp

/-- C1, witness: adding 1 and 2 to an initially empty default-sized table,
then querying 2. -/
theorem C1_witness :
    0 < 8 ∧ 2 ≤ 2 ∧
    (∃ s, from_list (@id Nat) 1 (init 8 2) [1, 2] = some s ∧
      member id s 2 = some (decide (2 ∈ [1, 2]))) :=
  ⟨by decide, by decide,
    C1_amended_theorem id 8 2 (by decide) (by decide) [1, 2] 2 0⟩

/-- C5, amended.  For every set `a` whose stored keys are pairwise distinct
and findable (every set reachable without `remove` satisfies this; `FullInv`),
`a.concat(empty())` returns `a` itself unchanged — hence set-equal to `a` —
and `empty().concat(a)` is set-equal to `a`.  (The unamended claim over all
reachable `a` is refuted by `C5_counterexample`.) -/
theorem C5_amended_theorem (f : Nat) (a : OpenAddressingSet K)
    (hinv : FullInv pyhash a) :
    (concat pyhash (f + 1) a empty = some a ∧ setEqb pyhash a a = true) ∧
    (∃ t, concat pyhash (f + 1) empty a = some t ∧ setEqb pyhash a t = true) := by
  refine ⟨⟨?_, ?_⟩, ?_⟩
  · show foldAdd (add pyhash (f + 1)) a ((empty : OpenAddressingSet K).buckets.filterMap id) = some a
    rw [show ((empty : OpenAddressingSet K).buckets.filterMap id : List K) = [] from
      to_list_init 8 2]
    rfl
  · exact setEqb_of_inv pyhash a a hinv hinv (fun y => Iff.rfl)
  · obtain ⟨t, heq, hinvt, _, hmem⟩ :=
      foldAdd_add_full pyhash f (a.buckets.filterMap id) empty
        (init_full pyhash 8 2 (by omega) (by omega))
    refine ⟨t, heq, ?_⟩
    apply setEqb_of_inv pyhash a t hinv hinvt
    intro y
    rw [hmem y, show to_list (empty : OpenAddressingSet K) = [] from to_list_init 8 2]
    simp only [List.not_mem_nil, false_or]
    exact Iff.rfl

/-- C5, witness: the well-formed one-element set `{1}`. -/
theorem C5_witness :
    FullInv (@id Nat) wset ∧
    ((concat (@id Nat) 1 wset empty = some wset ∧
        setEqb (@id Nat) wset wset = true) ∧
      ∃ t, concat (@id Nat) 1 empty wset = some t ∧
        setEqb (@id Nat) wset t = true) :=
  ⟨by decide, C5_amended_theorem id 0 wset (by decide)⟩

/-- C8, amended.  For every set whose stored keys are pairwise distinct and
findable (every set reachable without `remove`), `add(k); add(k)` leaves
`size` exactly as after a single `add(k)`.  (The unamended claim over all
reachable sets is refuted by `C8_counterexample`.) -/
theorem C8_amended_theorem (f : Nat) (s : OpenAddressingSet K) (key : K)
    (hinv : FullInv pyhash s) :
    ∃ s₁ s₂, add pyhash (f + 1) s key = some s₁ ∧
      add pyhash (f + 1) s₁ key = some s₂ ∧ s₂.size = s₁.size := by
  obtain ⟨s₁, h1, hinv₁, _, _, hmem₁, _⟩ := add_full pyhash f s key hinv
  obtain ⟨s₂, h2, _, _, _, _, hsz₂⟩ := add_full pyhash f s₁ key hinv₁
  have hk : key ∈ to_list s₁ := (hmem₁ key).mpr (Or.inl rfl)
  exact ⟨s₁, s₂, h1, h2, by rw [hsz₂, if_pos hk]⟩

/-- C8, witness: the well-formed set `{1}`, adding key 3 twice. -/
theorem C8_witness :
    FullInv (@id Nat) wset ∧
    (∃ s₁ s₂, add (@id Nat) 1 wset 3 = some s₁ ∧
      add (@id Nat) 1 s₁ 3 = some s₂ ∧ s₂.size = s₁.size) :=
  ⟨by decide, C8_amended_theorem id 0 wset 3 (by decide)⟩

/-- C9, amended.  For every set `s` whose stored keys are pairwise distinct
and findable (every set reachable without `remove`), `from_list(to_list(s))`
on a fresh default-constructed set is set-equal to `s` — same size and mutual
membership, independent of capacity and layout.  (The unamended claim over
all reachable `s` is refuted by `C9_counterexample`.) -/
theorem C9_amended_theorem (f : Nat) (s : OpenAddressingSet K)
    (hinv : FullInv pyhash s) :
    ∃ t, from_list pyhash (f + 1) (init 8 2) (to_list s) = some t ∧
      setEqb pyhash s t = true := by
  obtain ⟨t, heq, hinvt, _, hmem⟩ :=
    foldAdd_add_full pyhash f (to_list s) (init 8 2)
      (init_full pyhash 8 2 (by omega) (by omega))
  refine ⟨t, heq, ?_⟩
  apply setEqb_of_inv pyhash s t hinv hinvt
  intro y
  rw [hmem y, to_list_init]
  simp only [List.not_mem_nil, false_or]

/-- C9, witness: the well-formed set `{1}` with capacity 4. -/
theorem C9_witness :
    FullInv (@id Nat) wset ∧
    (∃ t, from_list (@id Nat) 1 (init 8 2) (to_list wset) = some t ∧
      setEqb (@id Nat) wset t = true) :=
  ⟨by decide, C9_amended_theorem id 0 wset (by decide)⟩

/-- C10, amended.  For every set whose stored keys are pairwise distinct and
findable (every set reachable without `remove`), an `add(key)` with `key`
already a member still triggers the resize whenever
`(size + 1) / capacity > 0.7`: the capacity is multiplied by the growth
factor and all elements rehashed, while `size` and the membership of every
key are unchanged.  (Over all reachable sets the frame part is refuted by
`C10_counterexample`: rehashing can repair broken probe chains.) -/
theorem C10_amended_theorem (f : Nat) (s : OpenAddressingSet K) (key : K)
    (hinv : FullInv pyhash s) (hmem : member pyhash s key = some true)
    (ht : 10 * (s.size + 1) > 7 * s.capacity) :
    ∃ s', add pyhash (f + 1) s key = some s' ∧
      s'.capacity = s.capacity * s.growth_factor ∧ s'.size = s.size ∧
      ∀ k, member pyhash s' k = member pyhash s k := by
  have hkey : key ∈ to_list s := mem_of_member_true pyhash s key hmem
  obtain ⟨s', h1, hinv', _, hcap', hmem', hsz'⟩ := add_full pyhash f s key hinv
  refine ⟨s', h1, by rw [hcap', if_pos ht], by rw [hsz', if_pos hkey], ?_⟩
  intro k
  rw [member_char pyhash s' hinv' k, member_char pyhash s hinv k]
  congr 1
  rw [decide_eq_decide, hmem' k]
  exact ⟨fun h => h.elim (fun he => he ▸ hkey) id, Or.inr⟩

/-- C10, witness: the set `{1, 2}` with capacity 4 (load `3/4 > 0.7`),
re-adding the member 1. -/
theorem C10_witness :
    FullInv (@id Nat) wsetFull ∧ member (@id Nat) wsetFull 1 = some true ∧
    10 * (wsetFull.size + 1) > 7 * wsetFull.capacity ∧
    (∃ s', add (@id Nat) 1 wsetFull 1 = some s' ∧
      s'.capacity = wsetFull.capacity * wsetFull.growth_factor ∧
      s'.size = wsetFull.size ∧
      ∀ k, member id s' k = member id wsetFull k) :=
  ⟨by decide, by decide, by decide,
    C10_amended_theorem id 0 wsetFull 1 (by decide) (by decide) (by decide)⟩

theorem collectFromAux_eq_filterMap (b : List (Option K)) :
    ∀ fuel i, b.length ≤ i + fuel →
    collectFromAux b fuel i = (b.drop i).filterMap id := by
  intro fuel
  induction fuel with
  | zero =>
    intro i h
    rw [List.drop_eq_nil_of_le (by omega)]
    rfl
  | succ f ih =>
    intro i h
    cases hb : b[i]? with
    | none =>
      have hge : b.length ≤ i := List.getElem?_eq_none_iff.mp hb
      rw [List.drop_eq_nil_of_le hge]
      simp [collectFromAux, hb]
    | some v =>
      have hlt : i < b.length := by
        by_contra hnot
        rw [List.getElem?_eq_none_iff.mpr (by omega)] at hb
        cases hb
      have hbv : b[i] = v := by
        have h2 := List.getElem?_eq_getElem hlt
        rw [hb] at h2
        exact (Option.some.inj h2).symm
      have hdrop : b.drop i = b[i] :: b.drop (i + 1) :=
        List.drop_eq_getElem_cons hlt
      rw [hdrop, hbv]
      cases v with
      | none =>
        simp only [collectFromAux, hb, List.filterMap_cons, id]
        exact ih (i + 1) (by omega)
      | some k =>
        simp only [collectFromAux, hb, List.filterMap_cons, id]
        rw [ih (i + 1) (by omega)]

/-- `collectFrom` really is the iteration protocol: each step is one
`__next__` call (`pyNext`), continuing from the cursor it returns, until
`StopIteration`. -/
theorem collectFrom_step (capacity : Nat) (b : List (Option K)) :
    ∀ fuel i, fuel = capacity - i →
    collectFromAux b fuel i =
      (match pyNextAux b fuel i with
       | some (k, j) => k :: collectFromAux b (capacity - j) j
       | none => []) := by
  intro fuel
  induction fuel with
  | zero => intro i _; rfl
  | succ f ih =>
    intro i hfi
    cases hb : b[i]? with
    | none => simp [collectFromAux, pyNextAux, hb]
    | some v =>
      cases v with
      | none =>
        have hf : f = capacity - (i + 1) := by omega
        simp only [collectFromAux, pyNextAux, hb]
        exact ih (i + 1) hf
      | some k =>
        have hf : f = capacity - (i + 1) := by omega
        simp only [collectFromAux, pyNextAux, hb]
        rw [← hf]

/-- C7, amended.  On every set whose bucket array has length `capacity`
(every reachable state), a fresh iteration — cursor starting at 0, repeatedly
calling `__next__` until `StopIteration` — yields exactly `to_list`: each
occupied slot's element exactly once, in bucket order.  The state of this
iteration is the single `iter_index` stored on the container, so the
exactly-once guarantee holds for one iteration at a time; interleaved
iterations share that cursor and interfere (`C7_counterexample`). -/
theorem C7_amended_theorem (s : OpenAddressingSet K)
    (h : s.buckets.length = s.capacity) :
    collectFrom s.capacity s.buckets 0 = to_list s := by
  show collectFromAux s.buckets (s.capacity - 0) 0 = to_list s
  rw [Nat.sub_zero, collectFromAux_eq_filterMap s.buckets s.capacity 0 (by omega),
    List.drop_zero]
  rfl

/-- C7, witness: the concrete set `{1, 2}`. -/
theorem C7_witness :
    scex.buckets.length = scex.capacity ∧
    collectFrom scex.capacity scex.buckets 0 = to_list scex :=
  ⟨by decide, C7_amended_theorem scex (by decide)⟩

end OpenAddressingSet
